import Mathlib

/-!
# A cross-sectional factor computation engine ("Pipeline"), verified

The repository's notebook builds declarative pipeline specifications
(columns of per-asset, per-day computed values, a windowed moving average,
and a universe screen) and hands them to a hosted execution engine
(`Pipeline`, `run_pipeline`, `SimpleMovingAverage`, `QTradableStocksUS`).
The engine itself is library code that is not part of the repository, so
the definitions below model it from the specification: a Column Store of
raw (date, asset) series, an expression graph of nodes, depth-first
cycle detection, a window evaluator with null-aware aggregation, a
universe filter, and a pipeline executor `run`.

Dates are trading sessions, represented by natural numbers; raw values
are rationals; missing data is `Option.none`.
-/

namespace Pipeline

/-- Modelled from the spec: the Column Store holds the trading calendar
(`sessions`, ascending), the known-asset registry, and named raw series
indexed by (date, asset); a missing entry is `none`. -/
structure ColumnStore where
  sessions : List Nat
  assets : List Nat
  columns : List (String × (Nat → Nat → Option ℚ))

/-- Modelled from the spec: an expression-graph node. `inputRef` is a raw
reference to a named Column, `inputLatest` is `InputRef(col).latest`,
`sma` is a windowed factor (`SimpleMovingAverage` with a window length and
one input node, as built by the notebook), and `filterPrim` is an opaque
universe filter such as `QTradableStocksUS` (a per-(date, asset)
boolean predicate supplied by a collaborator). -/
inductive NodeDef where
  | inputRef (col : String)
  | inputLatest (col : String)
  | sma (w : Nat) (input : Nat)
  | filterPrim (p : Nat → Nat → Bool)

/-- The node id a node depends on, if any (only windowed factors have
an input node). -/
def NodeDef.depId : NodeDef → Option Nat
  | .sma _ i => some i
  | _ => none

/-- Modelled from the spec: the error taxonomy of spec validation
(cyclic graph, unknown column, duplicate output column name,
dangling node reference). -/
inductive PErr where
  | cyclicGraph
  | unknownColumn
  | duplicateColumn
  | unknownNode
  deriving DecidableEq, Repr

/-- Modelled from the spec: a PipelineSpec is a node table (`graph`),
an ordered mapping output-column-name → node id (`columns`, insertion
order is list order), and an optional screen filter node. -/
structure PipelineSpec where
  graph : List (Nat × NodeDef)
  columns : List (String × Nat)
  screen : Option Nat

/-- Modelled from the spec: the ResultTable — named columns in declared
order, and one row per (date, asset) in the included universe, holding
one optional value per column. -/
structure ResultTable where
  colNames : List String
  rows : List (Nat × Nat × List (Option ℚ))
  deriving DecidableEq, Repr

/-- Look a node id up in the node table (first match). -/
def lookupNode (g : List (Nat × NodeDef)) (id : Nat) : Option NodeDef :=
  match g with
  | [] => none
  | (k, nd) :: rest => if k = id then some nd else lookupNode rest id

/-- Remove every entry with the given key from the node table. -/
def eraseKey (g : List (Nat × NodeDef)) (id : Nat) : List (Nat × NodeDef) :=
  g.filter (fun p => p.1 ≠ id)

/-- Look a column up by name in a column list. -/
def getColIn : List (String × (Nat → Nat → Option ℚ)) → String →
    Option (Nat → Nat → Option ℚ)
  | [], _ => none
  | (n, col) :: rest, c => if n = c then some col else getColIn rest c

/-- Look a column up by name in the Column Store. -/
def getCol (store : ColumnStore) (c : String) : Option (Nat → Nat → Option ℚ) :=
  getColIn store.columns c

/-- The trading sessions at or before a date, in calendar order. -/
def prevSessions (store : ColumnStore) (d : Nat) : List Nat :=
  store.sessions.filter (fun s => s ≤ d)

/-- Modelled from the spec: `InputRef.latest` — the most recent non-null
value of a column for an asset over a session list (ascending); `none`
when every value is null. -/
def latestVal (col : Nat → Nat → Option ℚ) (sess : List Nat) (a : Nat) : Option ℚ :=
  match sess with
  | [] => none
  | s :: rest =>
    match latestVal col rest a with
    | some v => some v
    | none => col s a

/-- Modelled from the spec: the Window Evaluator. Evaluates a node at a
(date, asset). A raw reference yields the column's value at the date;
`latest` forward-fills; a windowed factor with window length `w` needs
`w` trailing sessions of history (else null), aggregates only the
non-null values in the window, and yields null on an all-null window.
`fuel` bounds the recursion depth through the node table; the executor
supplies `graph.length + 1`, enough for any acyclic graph. -/
def evalNode (store : ColumnStore) (g : List (Nat × NodeDef)) :
    Nat → Nat → Nat → Nat → Option ℚ
  | 0, _, _, _ => none
  | fuel + 1, id, d, a =>
    match lookupNode g id with
    | none => none
    | some (.inputRef c) =>
      match getCol store c with
      | none => none
      | some col => col d a
    | some (.inputLatest c) =>
      match getCol store c with
      | none => none
      | some col => latestVal col (prevSessions store d) a
    | some (.filterPrim _) => none
    | some (.sma w input) =>
      let ps := prevSessions store d
      if w = 0 then none
      else if ps.length < w then none
      else
        let vals := (ps.drop (ps.length - w)).filterMap
          (fun s => evalNode store g fuel input s a)
        if vals = [] then none else some (vals.sum / (vals.length : ℚ))

/-- Modelled from the spec: the Universe Filter Evaluator — whether an
asset passes the screen on a date ("always true" when the screen is
absent). -/
def screenPass (g : List (Nat × NodeDef)) (scr : Option Nat) (d a : Nat) : Bool :=
  match scr with
  | none => true
  | some sid =>
    match lookupNode g sid with
    | some (.filterPrim p) => p d a
    | _ => false

/-- Modelled from the spec: depth-first traversal of the dependency
graph from one node. `grey` is the active traversal stack, `black` the
finished (leaves-first) accumulator; revisiting a grey node is a cycle,
and an unresolvable node id is a dangling reference. The expanded node
is erased from the table for the nested call, so the recursion depth is
bounded by the table size. -/
def dfsNode : Nat → List (Nat × NodeDef) → Nat → List Nat → List Nat →
    Except PErr (List Nat)
  | 0, _, _, _, _ => .error .cyclicGraph
  | fuel + 1, g, id, grey, black =>
    if id ∈ black then .ok black
    else if id ∈ grey then .error .cyclicGraph
    else
      match lookupNode g id with
      | none => .error .unknownNode
      | some nd =>
        match nd.depId with
        | none => .ok (id :: black)
        | some dep =>
          match dfsNode fuel (eraseKey g id) dep (id :: grey) black with
          | .error e => .error e
          | .ok black2 => .ok (id :: black2)

/-- Depth-first traversal from every root in turn, threading the
finished set. -/
def dfsRoots (g : List (Nat × NodeDef)) : List Nat → List Nat →
    Except PErr (List Nat)
  | [], black => .ok black
  | r :: rs, black =>
    match dfsNode (g.length + 1) g r [] black with
    | .error e => .error e
    | .ok black2 => dfsRoots g rs black2

/-- The root node ids of a spec: the column nodes plus the screen. -/
def rootsOf (spec : PipelineSpec) : List Nat :=
  spec.columns.map Prod.snd ++
    (match spec.screen with | none => [] | some s => [s])

/-- Whether a node's column references resolve in the Column Store. -/
def nodeColsOk (store : ColumnStore) : NodeDef → Bool
  | .inputRef c => (getCol store c).isSome
  | .inputLatest c => (getCol store c).isSome
  | _ => true

/-- Modelled from the spec: spec validation, run before any evaluation —
duplicate output column names, unknown column references, then the
depth-first cyclic-graph check over every root. -/
def checkSpec (store : ColumnStore) (spec : PipelineSpec) :
    Except PErr (List Nat) :=
  if (spec.columns.map Prod.fst).Nodup then
    if spec.graph.all (fun p => nodeColsOk store p.2) then
      dfsRoots spec.graph (rootsOf spec) []
    else .error .unknownColumn
  else .error .duplicateColumn

/-- Modelled from the spec: the Pipeline Executor.
`run spec startD endD` validates the spec (failing fast on an invalid
one), then, for every trading session in the inclusive date range and
every known asset passing the screen on that date, emits one row with
one value per declared output column. -/
def run (store : ColumnStore) (spec : PipelineSpec) (startD endD : Nat) :
    Except PErr ResultTable :=
  match checkSpec store spec with
  | .error e => .error e
  | .ok _ =>
    let dates := store.sessions.filter (fun d => decide (startD ≤ d ∧ d ≤ endD))
    let fuel := spec.graph.length + 1
    .ok { colNames := spec.columns.map Prod.fst
        , rows := List.flatten (dates.map (fun d =>
            (store.assets.filter (fun a => screenPass spec.graph spec.screen d a)).map
              (fun a => (d, a, spec.columns.map
                (fun c => evalNode store spec.graph fuel c.2 d a))))) }

/-- The assets having a row for a given date in a result table, in row
order. -/
def assetsAt (t : ResultTable) (d : Nat) : List Nat :=
  (t.rows.filter (fun r => r.1 = d)).map (fun r => r.2.1)

/-- A dependency step in the expression graph: node `x` directly
depends on node `y`. -/
def stepDep (g : List (Nat × NodeDef)) (x y : Nat) : Prop :=
  ∃ nd, lookupNode g x = some nd ∧ nd.depId = some y

/-- Every dependency mentioned in the node table resolves
(Bool-valued, decidable). -/
def closedB (g : List (Nat × NodeDef)) : Bool :=
  g.all (fun p =>
    match p.2.depId with
    | none => true
    | some dep => (lookupNode g dep).isSome)

/-- Every root of the spec resolves in the node table (Bool-valued). -/
def rootsOkB (spec : PipelineSpec) : Bool :=
  (rootsOf spec).all (fun r => (lookupNode spec.graph r).isSome)

/-- A rank function witnessing acyclicity: dependencies have strictly
smaller rank. -/
def Ranked (g : List (Nat × NodeDef)) : Prop :=
  ∃ rank : Nat → Nat, ∀ i nd, lookupNode g i = some nd →
    ∀ dep, nd.depId = some dep → rank dep < rank i

/-! ## Basic lemmas about the node table -/

lemma lookupNode_eraseKey (g : List (Nat × NodeDef)) (id x : Nat) :
    lookupNode (eraseKey g id) x = if x = id then none else lookupNode g x := by
  induction g with
  | nil => simp [eraseKey, lookupNode]
  | cons p rest ih =>
    obtain ⟨k, nd⟩ := p
    by_cases hk : k = id
    · subst hk
      have hstep : eraseKey ((k, nd) :: rest) k = eraseKey rest k := by
        simp only [eraseKey]
        rw [List.filter_cons_of_neg (by simp)]
      rw [hstep, ih]
      by_cases hx : x = k
      · simp [hx]
      · rw [if_neg hx, if_neg hx]
        simp only [lookupNode]
        rw [if_neg (fun h => hx h.symm)]
    · have hstep : eraseKey ((k, nd) :: rest) id = (k, nd) :: eraseKey rest id := by
        simp only [eraseKey]
        rw [List.filter_cons_of_pos (by simp [hk])]
      rw [hstep]
      simp only [lookupNode]
      by_cases hkx : k = x
      · subst hkx
        simp [hk]
      · rw [if_neg hkx, ih]
        by_cases hx : x = id
        · simp [hx]
        · rw [if_neg hx, if_neg hx, if_neg hkx]

lemma length_eraseKey_lt (g : List (Nat × NodeDef)) (id : Nat) (nd : NodeDef)
    (h : lookupNode g id = some nd) : (eraseKey g id).length < g.length := by
  induction g with
  | nil => simp [lookupNode] at h
  | cons p rest ih =>
    obtain ⟨k, nd'⟩ := p
    rw [lookupNode] at h
    by_cases hk : k = id
    · subst hk
      have hstep : eraseKey ((k, nd') :: rest) k = eraseKey rest k := by
        simp only [eraseKey]
        rw [List.filter_cons_of_neg (by simp)]
      rw [hstep]
      have hle : (eraseKey rest k).length ≤ rest.length := by
        simp only [eraseKey]
        exact List.length_filter_le _ _
      simp only [List.length_cons]
      omega
    · rw [if_neg hk] at h
      have hstep : eraseKey ((k, nd') :: rest) id = (k, nd') :: eraseKey rest id := by
        simp only [eraseKey]
        rw [List.filter_cons_of_pos (by simp [hk])]
      rw [hstep]
      simp only [List.length_cons]
      exact Nat.succ_lt_succ (ih h)

lemma lookupNode_mem (g : List (Nat × NodeDef)) (i : Nat) (nd : NodeDef)
    (h : lookupNode g i = some nd) : (i, nd) ∈ g := by
  induction g with
  | nil => simp [lookupNode] at h
  | cons p rest ih =>
    obtain ⟨k, nd'⟩ := p
    rw [lookupNode] at h
    by_cases hk : k = i
    · rw [if_pos hk] at h
      injection h with h
      subst hk h
      exact List.mem_cons_self _ _
    · exact List.mem_cons_of_mem _ (ih (by rwa [if_neg hk] at h))

lemma closedB_spec (g : List (Nat × NodeDef)) (hc : closedB g = true) :
    ∀ i nd, lookupNode g i = some nd →
      ∀ dep, nd.depId = some dep → (lookupNode g dep).isSome = true := by
  intro i nd h dep hdep
  have hmem := lookupNode_mem g i nd h
  rw [closedB, List.all_eq_true] at hc
  have := hc _ hmem
  rw [hdep] at this
  exact this

lemma rootsOkB_spec (spec : PipelineSpec) (hr : rootsOkB spec = true) :
    ∀ r ∈ rootsOf spec, (lookupNode spec.graph r).isSome = true := by
  intro r hmem
  rw [rootsOkB, List.all_eq_true] at hr
  exact hr r hmem

/-! ## Success of the depth-first traversal on acyclic closed graphs -/

lemma dfsNode_ok (g₀ : List (Nat × NodeDef)) (rank : Nat → Nat)
    (hrank : ∀ i nd, lookupNode g₀ i = some nd →
      ∀ dep, nd.depId = some dep → rank dep < rank i)
    (hclosed : ∀ i nd, lookupNode g₀ i = some nd →
      ∀ dep, nd.depId = some dep → (lookupNode g₀ dep).isSome = true) :
    ∀ fuel g v grey black,
      (∀ x, lookupNode g x = if x ∈ grey then none else lookupNode g₀ x) →
      g.length < fuel →
      (lookupNode g₀ v).isSome = true →
      (∀ j ∈ grey, rank v < rank j) →
      ∃ black', dfsNode fuel g v grey black = .ok black' := by
  intro fuel
  induction fuel with
  | zero => intro g v grey black _ hfuel _ _; omega
  | succ fuel ih =>
    intro g v grey black hg hfuel hv hgrey
    rw [dfsNode]
    by_cases hb : v ∈ black
    · rw [if_pos hb]; exact ⟨black, rfl⟩
    · rw [if_neg hb]
      by_cases hgr : v ∈ grey
      · exact absurd (hgrey v hgr) (lt_irrefl _)
      · rw [if_neg hgr]
        obtain ⟨nd, hnd⟩ := Option.isSome_iff_exists.mp hv
        have hlook : lookupNode g v = some nd := by rw [hg, if_neg hgr, hnd]
        simp only [hlook]
        cases hdep : nd.depId with
        | none => exact ⟨v :: black, rfl⟩
        | some dep =>
          obtain ⟨black2, h2⟩ := ih (eraseKey g v) dep (v :: grey) black
            (by
              intro x
              rw [lookupNode_eraseKey]
              by_cases hx : x = v
              · simp [hx]
              · rw [if_neg hx, hg]
                by_cases hxg : x ∈ grey
                · simp [hxg]
                · simp [hxg, hx])
            (by have := length_eraseKey_lt g v nd hlook; omega)
            (hclosed v nd hnd dep hdep)
            (by
              intro j hj
              rcases List.mem_cons.mp hj with hj | hj
              · rw [hj]; exact hrank v nd hnd dep hdep
              · exact lt_trans (hrank v nd hnd dep hdep) (hgrey j hj))
          simp only [h2]
          exact ⟨v :: black2, rfl⟩

lemma dfsRoots_ok (g₀ : List (Nat × NodeDef)) (rank : Nat → Nat)
    (hrank : ∀ i nd, lookupNode g₀ i = some nd →
      ∀ dep, nd.depId = some dep → rank dep < rank i)
    (hclosed : ∀ i nd, lookupNode g₀ i = some nd →
      ∀ dep, nd.depId = some dep → (lookupNode g₀ dep).isSome = true) :
    ∀ roots black,
      (∀ r ∈ roots, (lookupNode g₀ r).isSome = true) →
      ∃ black', dfsRoots g₀ roots black = .ok black' := by
  intro roots
  induction roots with
  | nil => intro black _; exact ⟨black, rfl⟩
  | cons r rs ih =>
    intro black hroots
    rw [dfsRoots]
    obtain ⟨black2, h2⟩ := dfsNode_ok g₀ rank hrank hclosed (g₀.length + 1) g₀ r [] black
      (by intro x; simp)
      (by omega)
      (hroots r (List.mem_cons_self _ _))
      (by intro j hj; simp at hj)
    rw [h2]
    exact ih black2 (fun r' hr' => hroots r' (List.mem_cons_of_mem _ hr'))

lemma checkSpec_ok (store : ColumnStore) (spec : PipelineSpec)
    (hnames : (spec.columns.map Prod.fst).Nodup)
    (hcols : spec.graph.all (fun p => nodeColsOk store p.2) = true)
    (hroots : rootsOkB spec = true)
    (hclosed : closedB spec.graph = true)
    (hranked : Ranked spec.graph) :
    ∃ order, checkSpec store spec = .ok order := by
  obtain ⟨rank, hrank⟩ := hranked
  obtain ⟨black', hb⟩ := dfsRoots_ok spec.graph rank hrank
    (closedB_spec spec.graph hclosed) (rootsOf spec) []
    (rootsOkB_spec spec hroots)
  rw [checkSpec, if_pos hnames, if_pos hcols]
  exact ⟨black', hb⟩

/-- C1: for every valid PipelineSpec (unique output names, resolvable
columns and node references) whose expression graph is acyclic, `run`
terminates (it is a total function) and returns a ResultTable whose
columns exactly equal the keys of `spec.columns` in declared order. -/
theorem run_ok_columns_declared_order (store : ColumnStore) (spec : PipelineSpec)
    (startD endD : Nat)
    (hnames : (spec.columns.map Prod.fst).Nodup)
    (hcols : spec.graph.all (fun p => nodeColsOk store p.2) = true)
    (hroots : rootsOkB spec = true)
    (hclosed : closedB spec.graph = true)
    (hranked : Ranked spec.graph) :
    ∃ t, run store spec startD endD = .ok t ∧
      t.colNames = spec.columns.map Prod.fst := by
  obtain ⟨order, hord⟩ := checkSpec_ok store spec hnames hcols hroots hclosed hranked
  rw [run, hord]
  exact ⟨_, rfl, rfl⟩

/-! ## Concrete scenario data from the spec -/

/-- The raw `close` series of the spec's scenario: {(d1,A):10,
(d2,A):12, (d3,A):14} with d1 = 0, d2 = 1, d3 = 2. -/
def storeCloseFn : Nat → Nat → Option ℚ := fun d _ =>
  if d = 0 then some 10 else if d = 1 then some 12
  else if d = 2 then some 14 else none

/-- The spec's Column Store scenario: `close` = {(d1,A):10, (d2,A):12,
(d3,A):14}, with sessions d1 = 0, d2 = 1, d3 = 2 and one asset A = 0. -/
def storeClose : ColumnStore :=
  { sessions := [0, 1, 2]
  , assets := [0]
  , columns := [("close", storeCloseFn)] }

/-- The spec's pipeline scenario: a single output column
`close_price = InputRef(close).latest` and no screen. -/
def specClose : PipelineSpec :=
  { graph := [(0, .inputLatest "close")]
  , columns := [("close_price", 0)]
  , screen := none }

theorem run_ok_columns_declared_order_witness :
    ∃ t, run storeClose specClose 0 2 = .ok t ∧
      t.colNames = specClose.columns.map Prod.fst := by
  apply run_ok_columns_declared_order
  · decide
  · decide
  · decide
  · decide
  · refine ⟨fun _ => 0, ?_⟩
    intro i nd h dep hdep
    have h' : lookupNode [(0, NodeDef.inputLatest "close")] i = some nd := h
    rw [lookupNode] at h'
    by_cases h0 : (0 : Nat) = i
    · rw [if_pos h0] at h'
      injection h' with h'
      rw [← h'] at hdep
      simp [NodeDef.depId] at hdep
    · rw [if_neg h0, lookupNode] at h'
      exact Option.noConfusion h'

/-! ## Completeness of cycle detection -/

/-- A finished list is topologically consistent with the graph: every
dependency of a finished node is finished and sits strictly later in
the list (the traversal conses nodes leaves-last). -/
def TopoInv (g₀ : List (Nat × NodeDef)) (l : List Nat) : Prop :=
  ∀ x ∈ l, ∀ nd dep, lookupNode g₀ x = some nd → nd.depId = some dep →
    dep ∈ l ∧ List.indexOf x l < List.indexOf dep l

lemma topoInv_nil (g₀ : List (Nat × NodeDef)) : TopoInv g₀ [] :=
  fun x hx => absurd hx (List.not_mem_nil x)

lemma topoInv_cons (g₀ : List (Nat × NodeDef)) (v : Nat) (l : List Nat)
    (hvl : v ∉ l) (hT : TopoInv g₀ l)
    (hv : ∀ nd dep, lookupNode g₀ v = some nd → nd.depId = some dep → dep ∈ l) :
    TopoInv g₀ (v :: l) := by
  intro x hx nd dep hnd hdep
  rcases List.mem_cons.mp hx with hx | hx
  · subst hx
    have hmem := hv nd dep hnd hdep
    have hne : dep ≠ x := fun h => hvl (h ▸ hmem)
    refine ⟨List.mem_cons_of_mem _ hmem, ?_⟩
    rw [List.indexOf_cons_self, List.indexOf_cons_ne l (fun h => hne h.symm)]
    exact Nat.succ_pos _
  · obtain ⟨hmem, hidx⟩ := hT x hx nd dep hnd hdep
    have hxv : v ≠ x := fun h => hvl (h ▸ hx)
    have hdv : v ≠ dep := fun h => hvl (h ▸ hmem)
    refine ⟨List.mem_cons_of_mem _ hmem, ?_⟩
    rw [List.indexOf_cons_ne l hxv, List.indexOf_cons_ne l hdv]
    exact Nat.succ_lt_succ hidx

lemma dfsNode_main (g₀ : List (Nat × NodeDef))
    (hclosed : ∀ i nd, lookupNode g₀ i = some nd →
      ∀ dep, nd.depId = some dep → (lookupNode g₀ dep).isSome = true) :
    ∀ fuel g v grey black,
      (∀ x, lookupNode g x = if x ∈ grey then none else lookupNode g₀ x) →
      (lookupNode g₀ v).isSome = true →
      black.Nodup →
      (∀ x ∈ black, x ∉ grey) →
      TopoInv g₀ black →
      (∃ black', dfsNode fuel g v grey black = .ok black' ∧
        v ∈ black' ∧ (∀ x ∈ black, x ∈ black') ∧
        black'.Nodup ∧ (∀ x ∈ black', x ∉ grey) ∧ TopoInv g₀ black') ∨
      dfsNode fuel g v grey black = .error .cyclicGraph := by
  intro fuel
  induction fuel with
  | zero => intro g v grey black _ _ _ _ _; right; rfl
  | succ fuel ih =>
    intro g v grey black hg hv hnodup hfresh hT
    rw [dfsNode]
    by_cases hb : v ∈ black
    · rw [if_pos hb]
      exact Or.inl ⟨black, rfl, hb, fun x hx => hx, hnodup, hfresh, hT⟩
    · rw [if_neg hb]
      by_cases hgr : v ∈ grey
      · rw [if_pos hgr]; right; rfl
      · rw [if_neg hgr]
        obtain ⟨nd, hnd⟩ := Option.isSome_iff_exists.mp hv
        have hlook : lookupNode g v = some nd := by rw [hg, if_neg hgr, hnd]
        simp only [hlook]
        cases hdep : nd.depId with
        | none =>
          left
          refine ⟨v :: black, rfl, List.mem_cons_self _ _,
            fun x hx => List.mem_cons_of_mem _ hx,
            List.nodup_cons.mpr ⟨hb, hnodup⟩, ?_, ?_⟩
          · intro x hx
            rcases List.mem_cons.mp hx with hx | hx
            · subst hx; exact hgr
            · exact hfresh x hx
          · refine topoInv_cons g₀ v black hb hT ?_
            intro nd' dep' hnd' hdep'
            rw [hnd] at hnd'
            injection hnd' with hnd'
            rw [← hnd', hdep] at hdep'
            exact Option.noConfusion hdep'
        | some dep =>
          have hgErase : ∀ x, lookupNode (eraseKey g v) x =
              if x ∈ v :: grey then none else lookupNode g₀ x := by
            intro x
            rw [lookupNode_eraseKey]
            by_cases hx : x = v
            · simp [hx]
            · rw [if_neg hx, hg]
              by_cases hxg : x ∈ grey
              · simp [hxg]
              · simp [hxg, hx]
          have hfresh' : ∀ x ∈ black, x ∉ v :: grey := by
            intro x hx hmem
            rcases List.mem_cons.mp hmem with h | h
            · exact hb (h ▸ hx)
            · exact hfresh x hx h
          rcases ih (eraseKey g v) dep (v :: grey) black hgErase
              (hclosed v nd hnd dep hdep) hnodup hfresh' hT with
            ⟨black2, h2, hdepmem, hsub, hnodup2, hfresh2, hT2⟩ | h2
          · simp only [h2]
            left
            have hvb2 : v ∉ black2 := fun h =>
              (hfresh2 v h) (List.mem_cons_self _ _)
            refine ⟨v :: black2, rfl, List.mem_cons_self _ _,
              fun x hx => List.mem_cons_of_mem _ (hsub x hx),
              List.nodup_cons.mpr ⟨hvb2, hnodup2⟩, ?_, ?_⟩
            · intro x hx
              rcases List.mem_cons.mp hx with hx | hx
              · subst hx; exact hgr
              · intro hmem
                exact (hfresh2 x hx) (List.mem_cons_of_mem _ hmem)
            · refine topoInv_cons g₀ v black2 hvb2 hT2 ?_
              intro nd' dep' hnd' hdep'
              rw [hnd] at hnd'
              injection hnd' with hnd'
              rw [← hnd', hdep] at hdep'
              injection hdep' with hdep'
              exact hdep' ▸ hdepmem
          · simp only [h2]
            exact Or.inr trivial

lemma dfsRoots_main (g₀ : List (Nat × NodeDef))
    (hclosed : ∀ i nd, lookupNode g₀ i = some nd →
      ∀ dep, nd.depId = some dep → (lookupNode g₀ dep).isSome = true) :
    ∀ roots black,
      (∀ r ∈ roots, (lookupNode g₀ r).isSome = true) →
      black.Nodup → TopoInv g₀ black →
      (∃ black', dfsRoots g₀ roots black = .ok black' ∧
        (∀ r ∈ roots, r ∈ black') ∧ (∀ x ∈ black, x ∈ black') ∧
        black'.Nodup ∧ TopoInv g₀ black') ∨
      dfsRoots g₀ roots black = .error .cyclicGraph := by
  intro roots
  induction roots with
  | nil =>
    intro black _ hnodup hT
    exact Or.inl ⟨black, rfl, fun r hr => absurd hr (List.not_mem_nil r),
      fun x hx => hx, hnodup, hT⟩
  | cons r rs ih =>
    intro black hroots hnodup hT
    rw [dfsRoots]
    rcases dfsNode_main g₀ hclosed (g₀.length + 1) g₀ r [] black
        (by intro x; simp)
        (hroots r (List.mem_cons_self _ _))
        hnodup
        (by intro x _ hmem; exact absurd hmem (List.not_mem_nil x))
        hT with
      ⟨black2, h2, hrmem, hsub, hnodup2, _, hT2⟩ | h2
    · simp only [h2]
      rcases ih black2 (fun r' hr' => hroots r' (List.mem_cons_of_mem _ hr'))
          hnodup2 hT2 with
        ⟨blackF, hF, hrootsF, hsubF, hnodupF, hTF⟩ | hF
      · left
        refine ⟨blackF, hF, ?_, fun x hx => hsubF x (hsub x hx), hnodupF, hTF⟩
        intro r' hr'
        rcases List.mem_cons.mp hr' with hr' | hr'
        · exact hr' ▸ hsubF r hrmem
        · exact hrootsF r' hr'
      · exact Or.inr hF
    · simp only [h2]
      exact Or.inr trivial

lemma reach_mem (g₀ : List (Nat × NodeDef)) (l : List Nat) (hT : TopoInv g₀ l) :
    ∀ x y, Relation.ReflTransGen (stepDep g₀) x y → x ∈ l → y ∈ l := by
  intro x y h
  induction h with
  | refl => exact fun hx => hx
  | tail _ hstep ih =>
    intro hx
    obtain ⟨nd, hnd, hdep⟩ := hstep
    exact (hT _ (ih hx) nd _ hnd hdep).1

lemma transGen_indexOf_lt (g₀ : List (Nat × NodeDef)) (l : List Nat)
    (hT : TopoInv g₀ l) :
    ∀ x y, Relation.TransGen (stepDep g₀) x y → x ∈ l →
      y ∈ l ∧ List.indexOf x l < List.indexOf y l := by
  intro x y h
  induction h with
  | single hstep =>
    intro hx
    obtain ⟨nd, hnd, hdep⟩ := hstep
    exact hT _ hx nd _ hnd hdep
  | tail _ hstep ih =>
    intro hx
    obtain ⟨hb, hidx⟩ := ih hx
    obtain ⟨nd, hnd, hdep⟩ := hstep
    obtain ⟨hc, hidx2⟩ := hT _ hb nd _ hnd hdep
    exact ⟨hc, lt_trans hidx hidx2⟩

/-- C8: for every PipelineSpec that is otherwise well-formed (unique
output names, resolvable columns, roots and node references) but whose
graph contains a node transitively depending on itself reachable from a
root, `run` fails with `CyclicGraphError` — the validation error is
returned before any evaluation work, so no table is ever produced. -/
theorem run_cyclic_graph_error (store : ColumnStore) (spec : PipelineSpec)
    (startD endD : Nat)
    (hnames : (spec.columns.map Prod.fst).Nodup)
    (hcols : spec.graph.all (fun p => nodeColsOk store p.2) = true)
    (hroots : rootsOkB spec = true)
    (hclosed : closedB spec.graph = true)
    (hcyc : ∃ r ∈ rootsOf spec, ∃ x,
      Relation.ReflTransGen (stepDep spec.graph) r x ∧
      Relation.TransGen (stepDep spec.graph) x x) :
    run store spec startD endD = .error .cyclicGraph := by
  obtain ⟨r, hr, x, hreach, hcycle⟩ := hcyc
  rcases dfsRoots_main spec.graph (closedB_spec _ hclosed) (rootsOf spec) []
      (rootsOkB_spec spec hroots) List.nodup_nil (topoInv_nil _) with
    ⟨blackF, hok, hrootsF, _, _, hTF⟩ | herr
  · exfalso
    have hxmem : x ∈ blackF :=
      reach_mem spec.graph blackF hTF r x hreach (hrootsF r hr)
    have := transGen_indexOf_lt spec.graph blackF hTF x x hcycle hxmem
    exact lt_irrefl _ this.2
  · rw [run, checkSpec, if_pos hnames, if_pos hcols]
    simp only [herr]

/-- A self-referential windowed factor: node 0 is its own input. -/
def specLoop : PipelineSpec :=
  { graph := [(0, .sma 1 0)]
  , columns := [("c", 0)]
  , screen := none }

/-- An empty Column Store. -/
def storeEmpty : ColumnStore :=
  { sessions := [], assets := [], columns := [] }

theorem run_cyclic_graph_error_witness :
    run storeEmpty specLoop 0 0 = .error .cyclicGraph := by
  apply run_cyclic_graph_error
  · decide
  · decide
  · decide
  · decide
  · exact ⟨0, by simp [rootsOf, specLoop], 0, Relation.ReflTransGen.refl,
      Relation.TransGen.single ⟨.sma 1 0, rfl, rfl⟩⟩

/-! ## The latest-value accessor (C3) -/

lemma latestVal_eq_none_iff (col : Nat → Nat → Option ℚ) (sess : List Nat) (a : Nat) :
    latestVal col sess a = none ↔ ∀ s ∈ sess, col s a = none := by
  induction sess with
  | nil => simp [latestVal]
  | cons s rest ih =>
    rw [latestVal]
    cases h : latestVal col rest a with
    | some w =>
      simp only [List.mem_cons]
      constructor
      · intro hc; exact Option.noConfusion hc
      · intro hall
        have : latestVal col rest a = none :=
          ih.mpr (fun t ht => hall t (Or.inr ht))
        rw [h] at this
        exact Option.noConfusion this
    | none =>
      constructor
      · intro hc t ht
        rcases List.mem_cons.mp ht with ht | ht
        · exact ht ▸ hc
        · exact ih.mp h t ht
      · intro hall
        exact hall s (List.mem_cons_self _ _)

lemma latestVal_eq_some_iff (col : Nat → Nat → Option ℚ) (sess : List Nat)
    (a : Nat) (v : ℚ) (hsorted : List.Pairwise (· < ·) sess) :
    latestVal col sess a = some v ↔
      ∃ s ∈ sess, col s a = some v ∧ ∀ t ∈ sess, s < t → col t a = none := by
  induction sess generalizing v with
  | nil => simp [latestVal]
  | cons s rest ih =>
    obtain ⟨hhead, htail⟩ := List.pairwise_cons.mp hsorted
    rw [latestVal]
    cases h : latestVal col rest a with
    | some w =>
      obtain ⟨s', hs', hcol', hlater'⟩ := (ih w htail).mp h
      constructor
      · intro hv
        injection hv with hv
        subst hv
        refine ⟨s', List.mem_cons_of_mem _ hs', hcol', ?_⟩
        intro t ht hlt
        rcases List.mem_cons.mp ht with ht | ht
        · exact absurd (ht ▸ hlt) (not_lt.mpr (le_of_lt (hhead s' hs')))
        · exact hlater' t ht hlt
      · rintro ⟨s'', hs'', hcol'', hlater''⟩
        rcases List.mem_cons.mp hs'' with hss | hss
        · exfalso
          have hnone := hlater'' s' (List.mem_cons_of_mem _ hs') (hss ▸ hhead s' hs')
          rw [hnone] at hcol'
          exact Option.noConfusion hcol'
        · have : latestVal col rest a = some v :=
            (ih v htail).mpr ⟨s'', hss, hcol'',
              fun t ht hlt => hlater'' t (List.mem_cons_of_mem _ ht) hlt⟩
          rw [h] at this
          exact this
    | none =>
      have hallnone := (latestVal_eq_none_iff col rest a).mp h
      constructor
      · intro hcs
        refine ⟨s, List.mem_cons_self _ _, hcs, ?_⟩
        intro t ht hlt
        rcases List.mem_cons.mp ht with ht | ht
        · exact absurd (ht ▸ hlt) (lt_irrefl s)
        · exact hallnone t ht
      · rintro ⟨s', hs', hcol', _⟩
        rcases List.mem_cons.mp hs' with hss | hss
        · exact hss ▸ hcol'
        · rw [hallnone s' hss] at hcol'
          exact Option.noConfusion hcol'

lemma evalNode_inputLatest_eq (store : ColumnStore) (g : List (Nat × NodeDef))
    (fuel id : Nat) (c : String) (d a : Nat)
    (hlook : lookupNode g id = some (.inputLatest c)) :
    evalNode store g (fuel + 1) id d a =
      (match getCol store c with
       | none => none
       | some col => latestVal col (prevSessions store d) a) := by
  simp only [evalNode, hlook]

lemma evalNode_inputLatest_some (store : ColumnStore) (g : List (Nat × NodeDef))
    (fuel id : Nat) (c : String) (col : Nat → Nat → Option ℚ) (d a : Nat)
    (hlook : lookupNode g id = some (.inputLatest c))
    (hcol : getCol store c = some col) :
    evalNode store g (fuel + 1) id d a =
      latestVal col (prevSessions store d) a := by
  simp only [evalNode, hlook, hcol]

lemma evalNode_inputLatest_none (store : ColumnStore) (g : List (Nat × NodeDef))
    (fuel id : Nat) (c : String) (d a : Nat)
    (hlook : lookupNode g id = some (.inputLatest c))
    (hcol : getCol store c = none) :
    evalNode store g (fuel + 1) id d a = none := by
  simp only [evalNode, hlook, hcol]

/-- C3: `InputRef.latest` evaluates, for an asset, to the most recent
non-null value of the referenced Column at or before the evaluation
date, and to null exactly when no session at or before the date has a
value; and the concrete scenario — `close` = {(d1,A):10, (d2,A):12,
(d3,A):14}, no screen, one column `close_price = InputRef(close).latest`
over [d1,d3] — yields exactly the rows (d1,A,10), (d2,A,12), (d3,A,14). -/
theorem inputRef_latest_most_recent (store : ColumnStore)
    (g : List (Nat × NodeDef)) (fuel id : Nat) (c : String)
    (col : Nat → Nat → Option ℚ) (d a : Nat)
    (hlook : lookupNode g id = some (.inputLatest c))
    (hcol : getCol store c = some col)
    (hsorted : List.Pairwise (· < ·) store.sessions) :
    ((∀ v, evalNode store g (fuel + 1) id d a = some v ↔
        ∃ s ∈ prevSessions store d, col s a = some v ∧
          ∀ t ∈ prevSessions store d, s < t → col t a = none) ∧
      (evalNode store g (fuel + 1) id d a = none ↔
        ∀ s ∈ prevSessions store d, col s a = none)) ∧
    run storeClose specClose 0 2 =
      .ok { colNames := ["close_price"]
          , rows := [(0, 0, [some 10]), (1, 0, [some 12]), (2, 0, [some 14])] } := by
  constructor
  · have hps : List.Pairwise (· < ·) (prevSessions store d) :=
      List.Pairwise.filter _ hsorted
    rw [evalNode_inputLatest_eq store g fuel id c d a hlook, hcol]
    exact ⟨fun v => latestVal_eq_some_iff col _ a v hps,
      latestVal_eq_none_iff col _ a⟩
  · rfl

theorem inputRef_latest_most_recent_witness :
    ((∀ v, evalNode storeClose specClose.graph 1 0 1 0 = some v ↔
        ∃ s ∈ prevSessions storeClose 1, storeCloseFn s 0 = some v ∧
          ∀ t ∈ prevSessions storeClose 1, s < t → storeCloseFn t 0 = none) ∧
      (evalNode storeClose specClose.graph 1 0 1 0 = none ↔
        ∀ s ∈ prevSessions storeClose 1, storeCloseFn s 0 = none)) ∧
    run storeClose specClose 0 2 =
      .ok { colNames := ["close_price"]
          , rows := [(0, 0, [some 10]), (1, 0, [some 12]), (2, 0, [some 14])] } :=
  inputRef_latest_most_recent storeClose specClose.graph 0 0 "close"
    storeCloseFn 1 0 rfl rfl (by decide)

/-! ## Windowed factors (C4, C5, C6) -/

lemma evalNode_sma_eq (store : ColumnStore) (g : List (Nat × NodeDef))
    (fuel id w input d a : Nat)
    (hlook : lookupNode g id = some (.sma w input)) :
    evalNode store g (fuel + 1) id d a =
      (if w = 0 then none
       else if (prevSessions store d).length < w then none
       else if ((prevSessions store d).drop ((prevSessions store d).length - w)).filterMap
           (fun s => evalNode store g fuel input s a) = [] then none
       else some ((((prevSessions store d).drop ((prevSessions store d).length - w)).filterMap
           (fun s => evalNode store g fuel input s a)).sum /
         ((((prevSessions store d).drop ((prevSessions store d).length - w)).filterMap
           (fun s => evalNode store g fuel input s a)).length : ℚ))) := by
  simp only [evalNode, hlook]

/-- C4: a windowed factor with window length `w ≥ 1`: (a) when fewer
than `w` trading sessions of history exist at the evaluation date the
output is null (the evaluator returns `none`, it cannot raise); (b) an
all-null input window yields null, with no numeric error such as
division by zero; (c) once the `w`-session window is fully populated
with non-null input data the output is a defined (non-null) value. -/
theorem windowed_factor_boundary (store : ColumnStore)
    (g : List (Nat × NodeDef)) (fuel id w input d a : Nat)
    (hlook : lookupNode g id = some (.sma w input)) (hw : 1 ≤ w) :
    ((prevSessions store d).length < w →
      evalNode store g (fuel + 1) id d a = none) ∧
    ((∀ s ∈ (prevSessions store d).drop ((prevSessions store d).length - w),
        evalNode store g fuel input s a = none) →
      evalNode store g (fuel + 1) id d a = none) ∧
    (w ≤ (prevSessions store d).length →
      (∀ s ∈ (prevSessions store d).drop ((prevSessions store d).length - w),
        (evalNode store g fuel input s a).isSome = true) →
      (evalNode store g (fuel + 1) id d a).isSome = true) := by
  have hw0 : ¬ w = 0 := by omega
  rw [evalNode_sma_eq store g fuel id w input d a hlook]
  refine ⟨?_, ?_, ?_⟩
  · intro hlt
    rw [if_neg hw0, if_pos hlt]
  · intro hnone
    rw [if_neg hw0]
    by_cases hlt : (prevSessions store d).length < w
    · rw [if_pos hlt]
    · rw [if_neg hlt, if_pos (List.filterMap_eq_nil.mpr hnone)]
  · intro hge hsome
    rw [if_neg hw0, if_neg (not_lt.mpr hge)]
    have hwin : ((prevSessions store d).drop
        ((prevSessions store d).length - w)).length = w := by
      rw [List.length_drop]
      omega
    have hvalsne : ((prevSessions store d).drop
        ((prevSessions store d).length - w)).filterMap
        (fun s => evalNode store g fuel input s a) ≠ [] := by
      intro hnil
      rw [List.filterMap_eq_nil] at hnil
      have hwne : (prevSessions store d).drop
          ((prevSessions store d).length - w) ≠ [] := by
        intro h
        rw [h] at hwin
        simp at hwin
        omega
      obtain ⟨s, hs⟩ := List.exists_mem_of_ne_nil _ hwne
      have h1 := hsome s hs
      rw [hnil s hs] at h1
      simp at h1
    rw [if_neg hvalsne]
    rfl

/-- A concrete store for the boundary witness: two sessions, one asset,
an all-null column `xnull` and an all-populated column `xfull`. -/
def storeWin : ColumnStore :=
  { sessions := [0, 1]
  , assets := [0]
  , columns := [("xnull", fun _ _ => none), ("xfull", fun _ _ => some 1)] }

/-- Windowed factors of length 2 over the raw `xnull` and `xfull`
columns. -/
def graphWin : List (Nat × NodeDef) :=
  [(0, .inputRef "xnull"), (1, .sma 2 0), (2, .inputRef "xfull"), (3, .sma 2 2)]

theorem windowed_factor_boundary_witness :
    evalNode storeWin graphWin 2 1 0 0 = none ∧
    evalNode storeWin graphWin 2 1 1 0 = none ∧
    (evalNode storeWin graphWin 2 3 1 0).isSome = true := by
  refine ⟨?_, ?_, ?_⟩
  · exact (windowed_factor_boundary storeWin graphWin 1 1 2 0 0 0 rfl
      (by decide)).1 (by decide)
  · exact (windowed_factor_boundary storeWin graphWin 1 1 2 0 1 0 rfl
      (by decide)).2.1 (fun s _ => rfl)
  · exact (windowed_factor_boundary storeWin graphWin 1 3 2 2 1 0 rfl
      (by decide)).2.2 (by decide) (fun s _ => rfl)

/-- The spec's sentiment scenario, generalized over the two non-null
values: sentiment = {(d1,A):null, (d2,A):q, (d3,A):r}. -/
def storeSent (q r : ℚ) : ColumnStore :=
  { sessions := [0, 1, 2]
  , assets := [0]
  , columns := [("sentiment", fun d _ =>
      if d = 1 then some q else if d = 2 then some r else none)] }

/-- `SimpleMovingAverage(sentiment, window_length=3)` as a graph: node 1
averages node 0, the raw sentiment reference. -/
def graphSent : List (Nat × NodeDef) :=
  [(0, .inputRef "sentiment"), (1, .sma 3 0)]

/-- C5: the windowed aggregation averages only the non-null values in
its window — for the window {null, q, r} at d3 the output is
(q + r) / 2, the mean of the two non-null values (a null is excluded,
not treated as zero); in particular the spec's scenario
{null, -1, 1} yields 0. -/
theorem sma_excludes_nulls (q r : ℚ) :
    evalNode (storeSent q r) graphSent 2 1 2 0 = some ((q + r) / 2) ∧
    evalNode (storeSent (-1) 1) graphSent 2 1 2 0 = some 0 := by
  constructor
  · have h : evalNode (storeSent q r) graphSent 2 1 2 0 =
        some (List.sum [q, r] / ((List.length [q, r] : ℕ) : ℚ)) := rfl
    rw [h]
    norm_num
  · have h : evalNode (storeSent (-1) 1) graphSent 2 1 2 0 =
        some (List.sum [(-1 : ℚ), 1] /
          ((List.length [(-1 : ℚ), (1 : ℚ)] : ℕ) : ℚ)) := rfl
    rw [h]
    norm_num

lemma drop_length_sub_one {α : Type} (l : List α) (h : l ≠ []) :
    l.drop (l.length - 1) = [l.getLast h] := by
  induction l with
  | nil => exact absurd rfl h
  | cons x rest ih =>
    cases rest with
    | nil => rfl
    | cons y t =>
      have hne : (y :: t) ≠ [] := by simp
      have hlen : (x :: y :: t).length - 1 = ((y :: t).length - 1) + 1 := by
        simp [List.length_cons]
      rw [hlen, List.drop_succ_cons, ih hne, List.getLast_cons hne]

lemma le_getLast_of_sorted (l : List Nat) (hp : List.Pairwise (· < ·) l)
    (h : l ≠ []) : ∀ x ∈ l, x ≤ l.getLast h := by
  induction l with
  | nil => exact absurd rfl h
  | cons a rest ih =>
    intro x hx
    cases rest with
    | nil =>
      rcases List.mem_cons.mp hx with hx | hx
      · exact hx ▸ le_refl _
      · exact absurd hx (List.not_mem_nil x)
    | cons b t =>
      have hne : (b :: t) ≠ [] := by simp
      rw [List.getLast_cons hne]
      obtain ⟨hhead, htail⟩ := List.pairwise_cons.mp hp
      rcases List.mem_cons.mp hx with hx | hx
      · have hmem : (b :: t).getLast hne ∈ b :: t := List.getLast_mem hne
        exact hx ▸ le_of_lt (hhead _ hmem)
      · exact ih htail hne x hx

lemma prevSessions_getLast (store : ColumnStore) (d : Nat)
    (hsorted : List.Pairwise (· < ·) store.sessions)
    (h : prevSessions store d ≠ []) :
    prevSessions store ((prevSessions store d).getLast h) =
      prevSessions store d := by
  have hps : List.Pairwise (· < ·) (prevSessions store d) :=
    List.Pairwise.filter _ hsorted
  have hlast_le : (prevSessions store d).getLast h ≤ d := by
    have hmem : (prevSessions store d).getLast h ∈ prevSessions store d :=
      List.getLast_mem h
    have := List.of_mem_filter hmem
    simpa using this
  apply List.filter_congr
  intro s hs
  rw [decide_eq_decide]
  constructor
  · intro hle
    exact le_trans hle hlast_le
  · intro hle
    have hsmem : s ∈ prevSessions store d := by
      rw [prevSessions, List.mem_filter]
      exact ⟨hs, by simpa using hle⟩
    exact le_getLast_of_sorted _ hps h s hsmem

/-- C6: a windowed factor with `window_length = 1` over
`InputRef.latest` evaluates to exactly the same value as evaluating
`InputRef.latest` directly, for every column, date and asset
(identity law). -/
theorem window_one_latest_identity (store : ColumnStore)
    (g : List (Nat × NodeDef)) (fuel id1 id2 : Nat) (c : String) (d a : Nat)
    (hlook1 : lookupNode g id1 = some (.sma 1 id2))
    (hlook2 : lookupNode g id2 = some (.inputLatest c))
    (hsorted : List.Pairwise (· < ·) store.sessions) :
    evalNode store g (fuel + 1 + 1) id1 d a =
      evalNode store g (fuel + 1) id2 d a := by
  rw [evalNode_sma_eq store g (fuel + 1) id1 1 id2 d a hlook1]
  rw [if_neg (by omega : ¬ (1 : Nat) = 0)]
  cases hcol : getCol store c with
  | none =>
    rw [evalNode_inputLatest_none store g fuel id2 c d a hlook2 hcol]
    by_cases hps : (prevSessions store d).length < 1
    · rw [if_pos hps]
    · rw [if_neg hps]
      rw [if_pos (List.filterMap_eq_nil.mpr
        (fun s _ => evalNode_inputLatest_none store g fuel id2 c s a hlook2 hcol))]
  | some col =>
    rw [evalNode_inputLatest_some store g fuel id2 c col d a hlook2 hcol]
    by_cases hps : prevSessions store d = []
    · rw [if_pos (by rw [hps]; simp), hps]
      rfl
    · have hlen : ¬ (prevSessions store d).length < 1 := by
        have := List.length_pos.mpr hps
        omega
      rw [if_neg hlen]
      rw [drop_length_sub_one (prevSessions store d) hps]
      simp only [List.filterMap_cons, List.filterMap_nil]
      rw [evalNode_inputLatest_some store g fuel id2 c col
        ((prevSessions store d).getLast hps) a hlook2 hcol]
      rw [prevSessions_getLast store d hsorted hps]
      cases hlv : latestVal col (prevSessions store d) a with
      | none => rfl
      | some v =>
        show (if [v] = [] then none
          else some (List.sum [v] / ((List.length [v] : ℕ) : ℚ))) = some v
        rw [if_neg (by simp)]
        simp

/-- A graph holding `InputRef(close).latest` (node 0) and a window-1
factor over it (node 1). -/
def graphLat : List (Nat × NodeDef) :=
  [(0, .inputLatest "close"), (1, .sma 1 0)]

theorem window_one_latest_identity_witness :
    evalNode storeClose graphLat 2 1 1 0 =
      evalNode storeClose graphLat 1 0 1 0 :=
  window_one_latest_identity storeClose graphLat 0 1 0 "close" 1 0
    rfl rfl (by decide)

/-! ## The executor's row structure (C2, C7, C9, C10) -/

lemma run_ok_shape (store : ColumnStore) (spec : PipelineSpec)
    (startD endD : Nat) (t : ResultTable)
    (hrun : run store spec startD endD = .ok t) :
    t = { colNames := spec.columns.map Prod.fst
        , rows := ((store.sessions.filter
              (fun d => decide (startD ≤ d ∧ d ≤ endD))).map
            (fun d => (store.assets.filter
                (fun a => screenPass spec.graph spec.screen d a)).map
              (fun a => (d, a, spec.columns.map
                (fun c => evalNode store spec.graph
                  (spec.graph.length + 1) c.2 d a))))).flatten } := by
  simp only [run] at hrun
  cases hck : checkSpec store spec with
  | error e =>
    rw [hck] at hrun
    exact Except.noConfusion hrun
  | ok ord =>
    rw [hck] at hrun
    injection hrun with h
    exact h.symm

lemma filter_flatten_blocks (dates : List Nat)
    (f : Nat → List (Nat × Nat × List (Option ℚ)))
    (hf : ∀ d' r, r ∈ f d' → r.1 = d')
    (hnodup : dates.Nodup) (d : Nat) (hd : d ∈ dates) :
    (dates.map f).flatten.filter (fun r => decide (r.1 = d)) = f d := by
  induction dates with
  | nil => cases hd
  | cons d' rest ih =>
    rw [List.map_cons, List.flatten_cons, List.filter_append]
    obtain ⟨hnd, hrest⟩ := List.nodup_cons.mp hnodup
    rcases List.mem_cons.mp hd with hdd | hd'
    · subst hdd
      have h1 : (f d).filter (fun r => decide (r.1 = d)) = f d :=
        List.filter_eq_self.mpr (fun r hr => by simp [hf d r hr])
      have h2 : (rest.map f).flatten.filter (fun r => decide (r.1 = d)) = [] := by
        rw [List.filter_eq_nil]
        intro r hr
        rw [List.mem_flatten] at hr
        obtain ⟨l, hl, hrl⟩ := hr
        rw [List.mem_map] at hl
        obtain ⟨d'', hd'', rfl⟩ := hl
        have hr1 := hf d'' r hrl
        simp only [decide_eq_true_eq]
        intro heq
        exact hnd ((hr1 ▸ heq : d'' = d) ▸ hd'')
      rw [h1, h2, List.append_nil]
    · have hdd : d ≠ d' := fun h => hnd (h ▸ hd')
      have h1 : (f d').filter (fun r => decide (r.1 = d)) = [] := by
        rw [List.filter_eq_nil]
        intro r hr
        have hr1 := hf d' r hr
        simp only [decide_eq_true_eq]
        intro heq
        exact hdd ((hr1 ▸ heq : d' = d)).symm
      rw [h1, List.nil_append]
      exact ih hrest hd'

/-- C2: for every date of the requested range, the set of assets having
rows in the ResultTable for that date is exactly the set of known assets
for which the screen evaluates true on that date — and all known assets
when the screen is absent. An asset the screen excludes on a date
therefore has no row for that date even when raw Column data exists. -/
theorem rows_assets_match_screen (store : ColumnStore) (spec : PipelineSpec)
    (startD endD : Nat) (t : ResultTable) (d : Nat)
    (hrun : run store spec startD endD = .ok t)
    (hnodup : store.sessions.Nodup)
    (hd : d ∈ store.sessions) (h1 : startD ≤ d) (h2 : d ≤ endD) :
    assetsAt t d = store.assets.filter
      (fun a => screenPass spec.graph spec.screen d a) ∧
    (spec.screen = none → assetsAt t d = store.assets) := by
  have hshape := run_ok_shape store spec startD endD t hrun
  subst hshape
  have hmain : assetsAt
      { colNames := spec.columns.map Prod.fst
      , rows := ((store.sessions.filter
            (fun d => decide (startD ≤ d ∧ d ≤ endD))).map
          (fun d => (store.assets.filter
              (fun a => screenPass spec.graph spec.screen d a)).map
            (fun a => (d, a, spec.columns.map
              (fun c => evalNode store spec.graph
                (spec.graph.length + 1) c.2 d a))))).flatten } d =
      store.assets.filter (fun a => screenPass spec.graph spec.screen d a) := by
    rw [assetsAt]
    rw [filter_flatten_blocks _ _
      (by
        intro d' r hr
        rw [List.mem_map] at hr
        obtain ⟨a, _, rfl⟩ := hr
        rfl)
      (List.Nodup.filter _ hnodup) d
      (List.mem_filter.mpr ⟨hd, by simp [h1, h2]⟩)]
    rw [List.map_map]
    apply List.map_id''
    intro a
    rfl
  refine ⟨hmain, ?_⟩
  intro hnone
  rw [hmain, hnone]
  have : ∀ a, screenPass spec.graph none d a = true := fun a => rfl
  simp [screenPass]

/-- C7: `run` is deterministic — two calls with the same spec and date
range over the same (unmutated) Column Store yield identical
ResultTables; the executor keeps no hidden mutable state across calls
(in this purely functional model, `run` is a function of its inputs). -/
theorem run_deterministic (store : ColumnStore) (spec : PipelineSpec)
    (startD endD : Nat) (t₁ t₂ : ResultTable)
    (h₁ : run store spec startD endD = .ok t₁)
    (h₂ : run store spec startD endD = .ok t₂) : t₁ = t₂ := by
  rw [h₁] at h₂
  injection h₂

/-- C9: a run over a date range lying entirely before any available
history (every trading session is later than the range's end) returns
an empty ResultTable, not an error, for every valid spec. -/
theorem run_before_history_empty (store : ColumnStore) (spec : PipelineSpec)
    (startD endD : Nat) (ord : List Nat)
    (hck : checkSpec store spec = .ok ord)
    (hbefore : ∀ s ∈ store.sessions, endD < s) :
    run store spec startD endD =
      .ok { colNames := spec.columns.map Prod.fst, rows := [] } := by
  simp only [run, hck]
  have hdates : store.sessions.filter
      (fun d => decide (startD ≤ d ∧ d ≤ endD)) = [] := by
    rw [List.filter_eq_nil]
    intro s hs
    simp only [decide_eq_true_eq, not_and]
    intro _
    exact not_le.mpr (hbefore s hs)
  rw [hdates]
  rfl

/-- C10: the date range of `run` is inclusive at both endpoints — every
trading session `d` with `startD ≤ d ≤ endD` (including the endpoints
themselves) contributes rows for every asset passing the screen. -/
theorem run_range_inclusive (store : ColumnStore) (spec : PipelineSpec)
    (startD endD : Nat) (t : ResultTable) (d a : Nat)
    (hrun : run store spec startD endD = .ok t)
    (hd : d ∈ store.sessions) (h1 : startD ≤ d) (h2 : d ≤ endD)
    (ha : a ∈ store.assets)
    (hpass : screenPass spec.graph spec.screen d a = true) :
    ∃ vals, (d, a, vals) ∈ t.rows := by
  have hshape := run_ok_shape store spec startD endD t hrun
  subst hshape
  refine ⟨spec.columns.map (fun c => evalNode store spec.graph
    (spec.graph.length + 1) c.2 d a), ?_⟩
  rw [List.mem_flatten]
  refine ⟨_, List.mem_map_of_mem _ (List.mem_filter.mpr ⟨hd, by simp [h1, h2]⟩), ?_⟩
  exact List.mem_map_of_mem _ (List.mem_filter.mpr ⟨ha, hpass⟩)

/-! ## Concrete witnesses for the executor claims -/

/-- The expected result table of the `close_price` scenario. -/
def tableClose : ResultTable :=
  { colNames := ["close_price"]
  , rows := [(0, 0, [some 10]), (1, 0, [some 12]), (2, 0, [some 14])] }

/-- A screen excluding asset B = 1 on d2 = 1 only. -/
def screenFnB : Nat → Nat → Bool := fun d a => !(d == 1 && a == 1)

/-- Column Store with assets A = 0 and B = 1, where raw `close` data
exists for both assets on every session. -/
def storeScr : ColumnStore :=
  { sessions := [0, 1, 2]
  , assets := [0, 1]
  , columns := [("close", storeCloseFn)] }

/-- Pipeline whose screen excludes B on d2 only. -/
def specScr : PipelineSpec :=
  { graph := [(0, .inputLatest "close"), (1, .filterPrim screenFnB)]
  , columns := [("close_price", 0)]
  , screen := some 1 }

/-- The result of running `specScr`: no row for (d2, B). -/
def tableScr : ResultTable :=
  { colNames := ["close_price"]
  , rows := [(0, 0, [some 10]), (0, 1, [some 10]),
             (1, 0, [some 12]),
             (2, 0, [some 14]), (2, 1, [some 14])] }

theorem rows_assets_match_screen_witness :
    (assetsAt tableScr 1 = storeScr.assets.filter
      (fun a => screenPass specScr.graph specScr.screen 1 a)) ∧
    assetsAt tableScr 1 = [0] := by
  constructor
  · exact (rows_assets_match_screen storeScr specScr 0 2 tableScr 1
      rfl (by decide) (by decide) (by decide) (by decide)).1
  · decide

theorem run_deterministic_witness : tableClose = tableClose :=
  run_deterministic storeClose specClose 0 2 tableClose tableClose rfl rfl

/-- A store whose history starts at session 10, after the requested
range [0, 2]. -/
def storeLate : ColumnStore :=
  { sessions := [10, 11, 12]
  , assets := [0]
  , columns := [("close", storeCloseFn)] }

theorem run_before_history_empty_witness :
    run storeLate specClose 0 2 =
      .ok { colNames := ["close_price"], rows := [] } :=
  run_before_history_empty storeLate specClose 0 2 [0] rfl (by decide)

theorem run_range_inclusive_witness :
    (∃ vals, (0, 0, vals) ∈ tableClose.rows) ∧
    (∃ vals, (2, 0, vals) ∈ tableClose.rows) :=
  ⟨run_range_inclusive storeClose specClose 0 2 tableClose 0 0
      rfl (by decide) (by decide) (by decide) (by decide) rfl,
   run_range_inclusive storeClose specClose 0 2 tableClose 2 0
      rfl (by decide) (by decide) (by decide) (by decide) rfl⟩

end Pipeline
